import Mathlib

/-!
Shallow embedding of the analytical core of `analysis.py` (transvolt-webapp).

Values (`float64` in the source) are modelled as rationals `ℚ`; timestamps
as integers `Int` (only their ordering and equality matter to the claims).
Each definition mirrors the corresponding function of `src/analysis.py`;
the Python `for`/`while` loops are translated as structural recursion on
the number of remaining iterations.
-/

/-- A cleaned sample: one row of the loaded series with its parsed
`Timestamp` and its `Values` entry (`analysis.py`, `load_df`). -/
structure Sample where
  timestamp : Int
  value : ℚ
deriving DecidableEq

instance : Inhabited Sample := ⟨⟨0, 0⟩⟩

/-- One row of the cleaned DataFrame returned by `load_df`: parsed
`Timestamp`, `Values`, and the derived `5_day_MA` column. -/
structure Row where
  timestamp : Int
  value : ℚ
  ma : ℚ
deriving DecidableEq

instance : Inhabited Row := ⟨⟨0, 0, 0⟩⟩

/-- The `(Index, Timestamp, Value)` tuple appended to
`acceleration_points` in `find_downward_acceleration`. -/
structure Accel where
  index : Nat
  timestamp : Int
  value : ℚ
deriving DecidableEq

instance : Inhabited Accel := ⟨⟨0, 0, 0⟩⟩

/-- The column `df["slope"] = df["Values"].diff()`: the step difference
`value[i] - value[i-1]`, read through `getD` (the loops only evaluate it
for `1 ≤ i < n`). -/
def slopeAt (vs : List ℚ) (i : Nat) : ℚ :=
  vs.getD i 0 - vs.getD (i - 1) 0

/-- The scanning loop of `find_downward_acceleration`
(`for i in range(1, len(df))`, lines 60-66): accumulate `downward_cycles`
and `current_cycle` exactly as the Python loop does; `steps` is the
number of remaining iterations, so the call at index `i` with `steps`
remaining visits `i, i+1, ..., i+steps-1`. -/
def cyclesGo (vs : List ℚ) :
    Nat → Nat → List (List Nat) → List Nat → List (List Nat) × List Nat
  | _, 0, cycles, current => (cycles, current)
  | i, steps + 1, cycles, current =>
      if slopeAt vs i < 0 then
        cyclesGo vs (i + 1) steps cycles (current ++ [i])
      else if current = [] then
        cyclesGo vs (i + 1) steps cycles []
      else
        cyclesGo vs (i + 1) steps (cycles ++ [current]) []

/-- The list `downward_cycles` as produced by `find_downward_acceleration` lines
57-68: run the scan over `i = 1 .. n-1`, then flush a non-empty
`current_cycle` at end of stream. -/
def downwardCycles (vs : List ℚ) : List (List Nat) :=
  let r := cyclesGo vs 1 (vs.length - 1) [] []
  if r.2 = [] then r.1 else r.1 ++ [r.2]

/-- The scan of `pandas.Series.idxmin`: keep the first index seen whose
slope is strictly smaller than the best so far (ties keep the earlier
index, as `idxmin` returns the first occurrence of the minimum). -/
def idxminAux (vs : List ℚ) (best : Nat) : List Nat → Nat
  | [] => best
  | j :: rest =>
      idxminAux vs (if slopeAt vs j < slopeAt vs best then j else best) rest

/-- The call `df["slope"].iloc[cycle].idxmin()`: the first index of the cycle
attaining the minimal slope (cycles are never empty in the source; `0`
is a dead default). -/
def cycleIdxmin (vs : List ℚ) : List Nat → Nat
  | [] => 0
  | j :: rest => idxminAux vs j rest

/-- The function `find_downward_acceleration` (`analysis.py` lines 50-80): one
`(Index, Timestamp, Value)` record per downward cycle, taken at the
cycle's `idxmin` of slope. -/
def find_downward_acceleration (df : List Row) : List Accel :=
  let vs := df.map (·.value)
  (downwardCycles vs).map fun c =>
    let j := cycleIdxmin vs c
    ⟨j, (df.getD j default).timestamp, (df.getD j default).value⟩

/-- The inner plateau scan of scipy's `_local_maxima_1d` (backing
`scipy.signal.find_peaks`): `while i_ahead < i_max and x[i_ahead] ==
x[i]: i_ahead += 1`. Here `steps = iMax - iAhead`, so `steps = 0` is
exactly the exit condition `i_ahead == i_max`. -/
def scanGo (x : List ℚ) (v : ℚ) : Nat → Nat → Nat
  | iAhead, 0 => iAhead
  | iAhead, steps + 1 =>
      if x.getD iAhead 0 = v then scanGo x v (iAhead + 1) steps else iAhead

/-- The outer loop of scipy's `_local_maxima_1d`: for each `i < iMax`
with a strict rise from `i-1`, scan the plateau ahead; if the value
after the plateau strictly falls, record the plateau midpoint
`(left_edge + right_edge) // 2` and resume after the plateau, else
advance by one. `fuel` bounds the number of iterations; any
`fuel ≥ iMax - i` yields the loop's result. -/
def lmGo (x : List ℚ) (iMax : Nat) : Nat → Nat → List Nat
  | _, 0 => []
  | i, fuel + 1 =>
    if i < iMax then
      if x.getD (i - 1) 0 < x.getD i 0 then
        let a := scanGo x (x.getD i 0) (i + 1) (iMax - (i + 1))
        if x.getD a 0 < x.getD i 0 then
          (i + (a - 1)) / 2 :: lmGo x iMax (a + 1) fuel
        else
          lmGo x iMax (i + 1) fuel
      else
        lmGo x iMax (i + 1) fuel
    else []

/-- The call `scipy.signal.find_peaks(x)` with no keyword arguments: the midpoints
of all local maxima found by `_local_maxima_1d` (`i_max = len(x) - 1`,
scan starting at `i = 1`). -/
def find_peaks (x : List ℚ) : List Nat :=
  lmGo x (x.length - 1) 1 x.length

/-- The function `find_extrema` (`analysis.py` lines 35-43): peak records and trough
records (each a `(Timestamp, Value)` pair), plus the raw index lists.
Troughs are `find_peaks(-df["Values"])`. -/
def find_extrema (df : List Row) :
    List (Int × ℚ) × List (Int × ℚ) × List Nat × List Nat :=
  let vals := df.map (·.value)
  let peaks := find_peaks vals
  let troughs := find_peaks (vals.map (fun v => -v))
  (peaks.map (fun i => ((df.getD i default).timestamp, (df.getD i default).value)),
   troughs.map (fun i => ((df.getD i default).timestamp, (df.getD i default).value)),
   peaks, troughs)

/-- The column `df["Values"].rolling(window=5, min_periods=1).mean()` at row `i`:
the mean of the trailing window of at most 5 values ending at row `i`
(the rows `i-4 .. i`, truncated at the start of the series). -/
def rollingMean5 (vs : List ℚ) (i : Nat) : ℚ :=
  let w := (vs.take (i + 1)).drop (i + 1 - 5)
  w.sum / w.length

/-- The sort `df.sort_values("Timestamp")`: a permutation of the rows
that is non-decreasing in the parsed timestamp. The source uses pandas'
default `kind='quicksort'`, which fixes no particular order on equal
timestamps; this model must pick one concrete order and uses
`mergeSort`. Only the sorted-by-timestamp contract of the result — not
the tie order, which is implementation-defined in the source — is relied
on by the theorems below. -/
def sortByTimestamp (s : List Sample) : List Sample :=
  s.mergeSort (fun a b => a.timestamp ≤ b.timestamp)

/-- Attaching the `5_day_MA` column (`analysis.py` line 31) to an
already-sorted series, producing the cleaned DataFrame rows. -/
def addMA (s : List Sample) : List Row :=
  (List.range s.length).map fun i =>
    ⟨(s.getD i default).timestamp, (s.getD i default).value,
     rollingMean5 (s.map (·.value)) i⟩

/-- The cleaning transform of `load_df` after the column check: sort by
timestamp (the index reset is implicit: rows are positional here) and
attach the moving-average column. -/
def cleanSeries (s : List Sample) : List Row :=
  addMA (sortByTimestamp s)

/-- Forget the derived column: project a cleaned row back to its sample. -/
def Row.toSample (r : Row) : Sample :=
  ⟨r.timestamp, r.value⟩

/-- The function `below_20` (`analysis.py` lines 46-47): the `(Timestamp, Value)`
pairs of the rows whose `Values` entry is strictly below 20, in series
order. -/
def below_20 (df : List Row) : List (Int × ℚ) :=
  (df.filter (fun r => r.value < 20)).map fun r => (r.timestamp, r.value)

/-- The renderer's independent re-derivation for chart 4
(`analysis.py` line 122): `below = df[df["Values"] < 20]`. -/
def rendererBelow (df : List Row) : List Row :=
  df.filter (fun r => r.value < 20)

/-- One raw CSV row as seen by `load_df`: the outcome of parsing its
`Timestamp` field with `pd.to_datetime(..., format="%d/%m/%y %H:%M",
errors="coerce")` (`none` = parse failure, coerced to `NaT`), and its
`Values` entry. -/
structure RawRow where
  ts : Option Int
  value : ℚ

/-- An input table: its column names and its rows. -/
structure CSVData where
  cols : List String
  rows : List RawRow

/-- The two fatal errors of `load_df`: `FileNotFoundError` when no input
is available, and the `assert` failure when a required column is
absent. -/
inductive LoadError
  | missingInput
  | schemaError
deriving DecidableEq

/-- The drop `df.dropna(subset=["Timestamp"])` after the coerced parse: keep
exactly the rows whose timestamp parsed, as samples. -/
def parsedRows (d : CSVData) : List Sample :=
  d.rows.filterMap fun r => r.ts.map fun t => ⟨t, r.value⟩

/-- The input selection of `load_df` lines 18-23: bytes take precedence;
otherwise an existing path is read (`fileSystem` models
`os.path.exists` + `pd.read_csv`: `none` = no such file); otherwise no
input is available. -/
def selectInput (uploadedBytes : Option CSVData) (csvPath : Option String)
    (fileSystem : String → Option CSVData) : Option CSVData :=
  match uploadedBytes with
  | some b => some b
  | none =>
    match csvPath with
    | some p => fileSystem p
    | none => none

/-- The loader `load_df(csv_path, uploaded_bytes)` (`analysis.py` lines 14-32):
select the input (`FileNotFoundError` if none), `assert` the two
required columns, parse-and-drop timestamps, sort, and attach the
moving-average column. -/
def load_df (uploadedBytes : Option CSVData) (csvPath : Option String)
    (fileSystem : String → Option CSVData) : Except LoadError (List Row) :=
  match selectInput uploadedBytes csvPath fileSystem with
  | none => .error .missingInput
  | some d =>
    if "Timestamp" ∈ d.cols ∧ "Values" ∈ d.cols then
      .ok (cleanSeries (parsedRows d))
    else
      .error .schemaError

/-- The artifact files written by a successful `run_analysis`, in write
order: the acceleration CSV (line 152), then the five charts of
`plot_and_save_all`. -/
def artifactFiles (outDir : String) : List String :=
  [outDir ++ "/downward_acceleration_points.csv",
   outDir ++ "/plot_1_original.png",
   outDir ++ "/plot_2_ma.png",
   outDir ++ "/plot_3_peaks_troughs.png",
   outDir ++ "/plot_4_below20.png",
   outDir ++ "/plot_5_acceleration.png"]

/-- The orchestrator `run_analysis` (`analysis.py` lines 143-165): `load_df` runs first;
a fatal error propagates before any artifact write. On success the CSV
and the five charts are written. The first component records the files
written, the second the outcome. -/
def run_analysis (uploadedBytes : Option CSVData) (csvPath : Option String)
    (fileSystem : String → Option CSVData) (outDir : String) :
    List String × Except LoadError (List Row × List Accel) :=
  match load_df uploadedBytes csvPath fileSystem with
  | .error e => ([], .error e)
  | .ok df => (artifactFiles outDir, .ok (df, find_downward_acceleration df))

/-!
Proof devices: an accumulator-free form of the descent scan, and the
run/maximality predicates the claims refer to.
-/

/-- Accumulator-free form of `cyclesGo`: emits each closed cycle in
place instead of appending it to the accumulator. -/
def segmentsGo (vs : List ℚ) : Nat → Nat → List Nat → List (List Nat)
  | _, 0, cur => if cur = [] then [] else [cur]
  | i, steps + 1, cur =>
      if slopeAt vs i < 0 then
        segmentsGo vs (i + 1) steps (cur ++ [i])
      else if cur = [] then
        segmentsGo vs (i + 1) steps []
      else
        cur :: segmentsGo vs (i + 1) steps []

/-- A maximal downward run of `vs` (length `n`): consecutive indices
`l .. l+len-1`, all with negative slope, not extendable on either side
(closed on the left by the series start or a non-negative slope, on the
right by the series end or a non-negative slope). -/
def IsMaxRun (vs : List ℚ) (n : Nat) (c : List Nat) : Prop :=
  ∃ l len, c = List.range' l len ∧ 0 < len ∧ 1 ≤ l ∧ l + len ≤ n ∧
    (∀ j, l ≤ j → j < l + len → slopeAt vs j < 0) ∧
    (l = 1 ∨ ¬ slopeAt vs (l - 1) < 0) ∧
    (l + len = n ∨ ¬ slopeAt vs (l + len) < 0)

/-- The spec's description of the moving-average column: the arithmetic
mean of the raw values at indices `max(0, i-4) .. i` (here `i - 4` is
truncated subtraction, so it is exactly `max(0, i-4)`). -/
def specTrailingMean (vs : List ℚ) (i : Nat) : ℚ :=
  ((List.range' (i - 4) (i + 1 - (i - 4))).map (vs.getD · 0)).sum /
    ((i + 1 - (i - 4) : Nat) : ℚ)

/-- Invariant of the scan state: `current_cycle` is either empty (and
the step before `i`, if any, had non-negative slope) or the run of
consecutive indices `l .. i-1`, all of negative slope, that cannot be
extended to the left. -/
def CurOK (vs : List ℚ) (i : Nat) (cur : List Nat) : Prop :=
  (cur = [] ∧ (i = 1 ∨ ¬ slopeAt vs (i - 1) < 0)) ∨
  (∃ l, 1 ≤ l ∧ l < i ∧ cur = List.range' l (i - l) ∧
    (∀ j, l ≤ j → j < i → slopeAt vs j < 0) ∧
    (l = 1 ∨ ¬ slopeAt vs (l - 1) < 0))

/-! ### Descent segmenter: run structure -/

theorem cyclesGo_eq_segmentsGo (vs : List ℚ) :
    ∀ steps i cycles cur,
      (let r := cyclesGo vs i steps cycles cur
       if r.2 = [] then r.1 else r.1 ++ [r.2]) =
        cycles ++ segmentsGo vs i steps cur := by
  intro steps
  induction steps with
  | zero =>
    intro i cycles cur
    simp only [cyclesGo, segmentsGo]
    split <;> simp
  | succ steps ih =>
    intro i cycles cur
    simp only [cyclesGo, segmentsGo]
    by_cases hs : slopeAt vs i < 0
    · simp only [if_pos hs]
      exact ih (i + 1) cycles (cur ++ [i])
    · by_cases hc : cur = []
      · simp only [if_neg hs, if_pos hc]
        exact ih (i + 1) cycles []
      · simp only [if_neg hs, if_neg hc]
        rw [ih (i + 1) (cycles ++ [cur]) []]
        simp

theorem downwardCycles_eq_segmentsGo (vs : List ℚ) :
    downwardCycles vs = segmentsGo vs 1 (vs.length - 1) [] := by
  have h := cyclesGo_eq_segmentsGo vs (vs.length - 1) 1 [] []
  simpa [downwardCycles] using h

theorem segmentsGo_mem (vs : List ℚ) :
    ∀ steps i cur j,
      (∃ c ∈ segmentsGo vs i steps cur, j ∈ c) ↔
        (j ∈ cur ∨ (i ≤ j ∧ j < i + steps ∧ slopeAt vs j < 0)) := by
  intro steps
  induction steps with
  | zero =>
    intro i cur j
    simp only [segmentsGo]
    split
    · rename_i hc
      subst hc
      simp
      omega
    · simp
      omega
  | succ steps ih =>
    intro i cur j
    simp only [segmentsGo]
    by_cases hs : slopeAt vs i < 0
    · rw [if_pos hs, ih]
      simp only [List.mem_append, List.mem_singleton]
      constructor
      · rintro ((h | rfl) | ⟨h1, h2, h3⟩)
        · exact Or.inl h
        · exact Or.inr ⟨Nat.le_refl _, by omega, hs⟩
        · exact Or.inr ⟨by omega, by omega, h3⟩
      · rintro (h | ⟨h1, h2, h3⟩)
        · exact Or.inl (Or.inl h)
        · rcases Nat.eq_or_lt_of_le h1 with rfl | hlt
          · exact Or.inl (Or.inr rfl)
          · exact Or.inr ⟨hlt, by omega, h3⟩
    · by_cases hc : cur = []
      · rw [if_neg hs, if_pos hc, ih]
        subst hc
        simp only [List.not_mem_nil, false_or]
        constructor
        · rintro ⟨h1, h2, h3⟩
          exact ⟨by omega, by omega, h3⟩
        · rintro ⟨h1, h2, h3⟩
          rcases Nat.eq_or_lt_of_le h1 with rfl | hlt
          · exact absurd h3 hs
          · exact ⟨hlt, by omega, h3⟩
      · rw [if_neg hs, if_neg hc]
        have htail := ih (i + 1) [] j
        simp only [List.not_mem_nil, false_or] at htail
        constructor
        · rintro ⟨c, hc', hj⟩
          rcases List.mem_cons.mp hc' with rfl | hc''
          · exact Or.inl hj
          · rcases htail.mp ⟨c, hc'', hj⟩ with ⟨h1, h2, h3⟩
            exact Or.inr ⟨by omega, by omega, h3⟩
        · rintro (h | ⟨h1, h2, h3⟩)
          · exact ⟨cur, List.mem_cons_self _ _, h⟩
          · rcases Nat.eq_or_lt_of_le h1 with rfl | hlt
            · exact absurd h3 hs
            · rcases htail.mpr ⟨hlt, by omega, h3⟩ with ⟨c, hc'', hj⟩
              exact ⟨c, List.mem_cons_of_mem _ hc'', hj⟩

theorem segmentsGo_pairwise (vs : List ℚ) :
    ∀ steps i cur, (∀ j ∈ cur, j < i) →
      (segmentsGo vs i steps cur).Pairwise
        (fun c c' => ∀ a ∈ c, ∀ b ∈ c', a < b) := by
  intro steps
  induction steps with
  | zero =>
    intro i cur _
    simp only [segmentsGo]
    split <;> simp
  | succ steps ih =>
    intro i cur hcur
    simp only [segmentsGo]
    by_cases hs : slopeAt vs i < 0
    · rw [if_pos hs]
      refine ih (i + 1) (cur ++ [i]) ?_
      intro j hj
      rcases List.mem_append.mp hj with h | h
      · exact Nat.lt_succ_of_lt (hcur j h)
      · simp only [List.mem_singleton] at h
        omega
    · by_cases hc : cur = []
      · rw [if_neg hs, if_pos hc]
        exact ih (i + 1) [] (by simp)
      · rw [if_neg hs, if_neg hc]
        refine List.pairwise_cons.mpr ⟨?_, ih (i + 1) [] (by simp)⟩
        intro c' hc' a ha b hb
        have hmem := (segmentsGo_mem vs steps (i + 1) [] b).mp ⟨c', hc', hb⟩
        simp only [List.not_mem_nil, false_or] at hmem
        have := hcur a ha
        omega

theorem segmentsGo_runs (vs : List ℚ) :
    ∀ steps i cur, 1 ≤ i → CurOK vs i cur →
      ∀ c ∈ segmentsGo vs i steps cur, IsMaxRun vs (i + steps) c := by
  intro steps
  induction steps with
  | zero =>
    intro i cur hi hok c hc
    simp only [segmentsGo] at hc
    split at hc
    · exact absurd hc (List.not_mem_nil c)
    · rename_i hne
      rcases List.mem_singleton.mp hc with rfl
      rcases hok with ⟨rfl, _⟩ | ⟨l, hl1, hli, hrange, hneg, hleft⟩
      · exact absurd rfl hne
      · exact ⟨l, i - l, hrange, by omega, hl1, by omega, by
          intro j h1 h2
          exact hneg j h1 (by omega), hleft, Or.inl (by omega)⟩
  | succ steps ih =>
    intro i cur hi hok c hc
    simp only [segmentsGo] at hc
    by_cases hs : slopeAt vs i < 0
    · rw [if_pos hs] at hc
      have hok' : CurOK vs (i + 1) (cur ++ [i]) := by
        rcases hok with ⟨rfl, hpre⟩ | ⟨l, hl1, hli, hrange, hneg, hleft⟩
        · refine Or.inr ⟨i, hi, by omega, ?_, ?_, ?_⟩
          · have : i + 1 - i = 1 := by omega
            simp [this]
          · intro j h1 h2
            have : j = i := by omega
            subst this; exact hs
          · exact hpre
        · refine Or.inr ⟨l, hl1, by omega, ?_, ?_, hleft⟩
          · rw [hrange]
            have : i + 1 - l = (i - l) + 1 := by omega
            rw [this, List.range'_1_concat]
            have : l + (i - l) = i := by omega
            rw [this]
          · intro j h1 h2
            rcases Nat.lt_or_ge j i with h | h
            · exact hneg j h1 h
            · have : j = i := by omega
              subst this; exact hs
      have := ih (i + 1) (cur ++ [i]) (by omega) hok' c hc
      have harith : i + 1 + steps = i + (steps + 1) := by omega
      rwa [harith] at this
    · by_cases hcur : cur = []
      · rw [if_neg hs, if_pos hcur] at hc
        have hok' : CurOK vs (i + 1) [] :=
          Or.inl ⟨rfl, Or.inr (by simpa using hs)⟩
        have := ih (i + 1) [] (by omega) hok' c hc
        have harith : i + 1 + steps = i + (steps + 1) := by omega
        rwa [harith] at this
      · rw [if_neg hs, if_neg hcur] at hc
        rcases List.mem_cons.mp hc with rfl | hc'
        · rcases hok with ⟨rfl, _⟩ | ⟨l, hl1, hli, hrange, hneg, hleft⟩
          · exact absurd rfl hcur
          · exact ⟨l, i - l, hrange, by omega, hl1, by omega, by
              intro j h1 h2
              exact hneg j h1 (by omega), hleft, Or.inr (by
                have : l + (i - l) = i := by omega
                rw [this]
                exact hs)⟩
        · have hok' : CurOK vs (i + 1) [] :=
            Or.inl ⟨rfl, Or.inr (by simpa using hs)⟩
          have := ih (i + 1) [] (by omega) hok' c hc'
          have harith : i + 1 + steps = i + (steps + 1) := by omega
          rwa [harith] at this

/-- C1: the Descent Segmenter partitions the negative-slope indices
exactly: an index `j` lies in some recorded run iff `1 ≤ j < n` and
`slope[j] < 0`; distinct recorded runs are disjoint; every recorded run
is a maximal consecutive stretch of negative slope (closed by a
non-negative step or by the end of the stream); a series of length < 2
produces zero runs; and a single downward step yields the one-element
run `[1]`. -/
theorem descent_runs_partition (vs : List ℚ) :
    (∀ j, (∃ c ∈ downwardCycles vs, j ∈ c) ↔
        (1 ≤ j ∧ j < vs.length ∧ slopeAt vs j < 0))
    ∧ (downwardCycles vs).Pairwise (fun c c' => ∀ a ∈ c, a ∉ c')
    ∧ (∀ c ∈ downwardCycles vs, IsMaxRun vs vs.length c)
    ∧ (vs.length < 2 → downwardCycles vs = [])
    ∧ (vs.length = 2 → slopeAt vs 1 < 0 → downwardCycles vs = [[1]]) := by
  refine ⟨?_, ?_, ?_, ?_, ?_⟩
  · intro j
    rw [downwardCycles_eq_segmentsGo, segmentsGo_mem]
    simp only [List.not_mem_nil, false_or]
    constructor
    · rintro ⟨h1, h2, h3⟩
      exact ⟨h1, by omega, h3⟩
    · rintro ⟨h1, h2, h3⟩
      exact ⟨h1, by omega, h3⟩
  · rw [downwardCycles_eq_segmentsGo]
    refine (segmentsGo_pairwise vs (vs.length - 1) 1 [] (by simp)).imp ?_
    intro c c' h a ha hb
    exact absurd rfl (Nat.ne_of_lt (h a ha a hb))
  · intro c hc
    rw [downwardCycles_eq_segmentsGo] at hc
    have h1 : CurOK vs 1 [] := Or.inl ⟨rfl, Or.inl rfl⟩
    have := segmentsGo_runs vs (vs.length - 1) 1 [] (Nat.le_refl 1) h1 c hc
    rcases Nat.eq_zero_or_pos vs.length with h0 | h0
    · rw [h0] at hc
      simp [segmentsGo] at hc
    · have harith : 1 + (vs.length - 1) = vs.length := by omega
      rwa [harith] at this
  · intro h
    have h0 : vs.length - 1 = 0 := by omega
    simp [downwardCycles, h0, cyclesGo]
  · intro h hs
    have h1 : vs.length - 1 = 1 := by omega
    simp [downwardCycles, h1, cyclesGo, if_pos hs]

/-! ### Descent segmenter: the per-run idxmin record -/

theorem idxminAux_spec (vs : List ℚ) :
    ∀ r b, (∀ m ∈ r, b < m) → r.Pairwise (· < ·) →
      (idxminAux vs b r = b ∨
        (idxminAux vs b r ∈ r ∧
          slopeAt vs (idxminAux vs b r) < slopeAt vs b))
      ∧ (∀ m ∈ r, slopeAt vs (idxminAux vs b r) ≤ slopeAt vs m)
      ∧ slopeAt vs (idxminAux vs b r) ≤ slopeAt vs b
      ∧ (∀ m ∈ r, slopeAt vs m = slopeAt vs (idxminAux vs b r) →
          idxminAux vs b r ≤ m) := by
  intro r
  induction r with
  | nil =>
    intro b _ _
    refine ⟨Or.inl rfl, by simp, le_refl _, by simp⟩
  | cons j rest ih =>
    intro b hb hp
    have hbj : b < j := hb j (List.mem_cons_self _ _)
    have hrest : rest.Pairwise (· < ·) := (List.pairwise_cons.mp hp).2
    have hjrest : ∀ m ∈ rest, j < m := (List.pairwise_cons.mp hp).1
    by_cases hcmp : slopeAt vs j < slopeAt vs b
    · have heq : idxminAux vs b (j :: rest) = idxminAux vs j rest := by
        simp [idxminAux, if_pos hcmp]
      obtain ⟨ih1, ih2, ih3, ih4⟩ := ih j hjrest hrest
      rw [heq]
      refine ⟨?_, ?_, ?_, ?_⟩
      · rcases ih1 with h | ⟨hmem, hlt⟩
        · exact Or.inr ⟨by rw [h]; exact List.mem_cons_self _ _, by rw [h]; exact hcmp⟩
        · exact Or.inr ⟨List.mem_cons_of_mem _ hmem, lt_trans hlt hcmp⟩
      · intro m hm
        rcases List.mem_cons.mp hm with rfl | hm'
        · exact ih3
        · exact ih2 m hm'
      · exact le_of_lt (lt_of_le_of_lt ih3 hcmp)
      · intro m hm hslope
        rcases List.mem_cons.mp hm with rfl | hm'
        · rcases ih1 with h | ⟨_, hlt⟩
          · rw [h]
          · exact absurd hslope (ne_of_gt hlt)
        · exact ih4 m hm' hslope
    · have heq : idxminAux vs b (j :: rest) = idxminAux vs b rest := by
        simp [idxminAux, if_neg hcmp]
      have hbrest : ∀ m ∈ rest, b < m := fun m hm =>
        hb m (List.mem_cons_of_mem _ hm)
      obtain ⟨ih1, ih2, ih3, ih4⟩ := ih b hbrest hrest
      rw [heq]
      have hbj' : slopeAt vs b ≤ slopeAt vs j := le_of_not_lt hcmp
      refine ⟨?_, ?_, ?_, ?_⟩
      · rcases ih1 with h | ⟨hmem, hlt⟩
        · exact Or.inl h
        · exact Or.inr ⟨List.mem_cons_of_mem _ hmem, hlt⟩
      · intro m hm
        rcases List.mem_cons.mp hm with rfl | hm'
        · exact le_trans ih3 hbj'
        · exact ih2 m hm'
      · exact ih3
      · intro m hm hslope
        rcases List.mem_cons.mp hm with rfl | hm'
        · rcases ih1 with h | ⟨_, hlt⟩
          · rw [h]; exact le_of_lt hbj
          · exact absurd (lt_of_lt_of_le hlt hbj') (by rw [hslope]; exact lt_irrefl _)
        · exact ih4 m hm' hslope

theorem cycleIdxmin_spec (vs : List ℚ) (c : List Nat) (hne : c ≠ [])
    (hp : c.Pairwise (· < ·)) :
    cycleIdxmin vs c ∈ c
    ∧ (∀ m ∈ c, slopeAt vs (cycleIdxmin vs c) ≤ slopeAt vs m)
    ∧ (∀ m ∈ c, slopeAt vs m = slopeAt vs (cycleIdxmin vs c) →
        cycleIdxmin vs c ≤ m) := by
  match c with
  | [] => exact absurd rfl hne
  | j :: rest =>
    have hjrest : ∀ m ∈ rest, j < m := (List.pairwise_cons.mp hp).1
    have hrest : rest.Pairwise (· < ·) := (List.pairwise_cons.mp hp).2
    obtain ⟨h1, h2, h3, h4⟩ := idxminAux_spec vs rest j hjrest hrest
    have heq : cycleIdxmin vs (j :: rest) = idxminAux vs j rest := rfl
    rw [heq]
    refine ⟨?_, ?_, ?_⟩
    · rcases h1 with h | ⟨hmem, _⟩
      · rw [h]; exact List.mem_cons_self _ _
      · exact List.mem_cons_of_mem _ hmem
    · intro m hm
      rcases List.mem_cons.mp hm with rfl | hm'
      · exact h3
      · exact h2 m hm'
    · intro m hm hslope
      rcases List.mem_cons.mp hm with rfl | hm'
      · rcases h1 with h | ⟨hmem, hlt⟩
        · rw [h]
        · exact absurd hslope (ne_of_gt hlt)
      · exact h4 m hm' hslope

theorem downwardCycles_isMaxRun (vs : List ℚ) :
    ∀ c ∈ downwardCycles vs, IsMaxRun vs (1 + (vs.length - 1)) c := by
  intro c hc
  rw [downwardCycles_eq_segmentsGo] at hc
  exact segmentsGo_runs vs (vs.length - 1) 1 [] (Nat.le_refl 1)
    (Or.inl ⟨rfl, Or.inl rfl⟩) c hc

theorem downwardCycles_pairwise_lt (vs : List ℚ) :
    (downwardCycles vs).Pairwise (fun c c' => ∀ a ∈ c, ∀ b ∈ c', a < b) := by
  rw [downwardCycles_eq_segmentsGo]
  exact segmentsGo_pairwise vs (vs.length - 1) 1 [] (by simp)

/-- C2: for every completed downward run, exactly one Acceleration
record is emitted (the records correspond 1-1, in order, to the runs);
its index attains the minimal slope of the run, ties broken by the
first occurrence; its timestamp and value are those of the destination
sample at that index; and the emitted records are strictly ascending by
recorded index. -/
theorem acceleration_records (df : List Row) :
    List.Forall₂ (fun c a =>
        a.index ∈ c
        ∧ (∀ j ∈ c, slopeAt (df.map (·.value)) a.index ≤
            slopeAt (df.map (·.value)) j)
        ∧ (∀ j ∈ c, slopeAt (df.map (·.value)) j =
            slopeAt (df.map (·.value)) a.index → a.index ≤ j)
        ∧ a.timestamp = (df.getD a.index default).timestamp
        ∧ a.value = (df.getD a.index default).value)
      (downwardCycles (df.map (·.value))) (find_downward_acceleration df)
    ∧ ((find_downward_acceleration df).map (·.index)).Pairwise (· < ·) := by
  set vs := df.map (·.value) with hvs
  have hdef : find_downward_acceleration df = (downwardCycles vs).map fun c =>
      ⟨cycleIdxmin vs c, (df.getD (cycleIdxmin vs c) default).timestamp,
        (df.getD (cycleIdxmin vs c) default).value⟩ := rfl
  have hcyc : ∀ c ∈ downwardCycles vs, cycleIdxmin vs c ∈ c
      ∧ (∀ m ∈ c, slopeAt vs (cycleIdxmin vs c) ≤ slopeAt vs m)
      ∧ (∀ m ∈ c, slopeAt vs m = slopeAt vs (cycleIdxmin vs c) →
          cycleIdxmin vs c ≤ m) := by
    intro c hc
    obtain ⟨l, len, hrange, hlen, -⟩ := downwardCycles_isMaxRun vs c hc
    have hne : c ≠ [] := by
      rw [hrange]
      simp [List.range'_eq_nil]
      omega
    have hp : c.Pairwise (· < ·) := by
      rw [hrange]
      exact List.pairwise_lt_range' l len
    exact cycleIdxmin_spec vs c hne hp
  constructor
  · rw [hdef, List.forall₂_map_right_iff]
    rw [List.forall₂_same]
    intro c hc
    obtain ⟨hmem, hmin, hties⟩ := hcyc c hc
    exact ⟨hmem, hmin, hties, rfl, rfl⟩
  · rw [hdef, List.map_map]
    rw [List.pairwise_map]
    refine (downwardCycles_pairwise_lt vs).imp_of_mem ?_
    intro c c' hc hc' h
    exact h (cycleIdxmin vs c) (hcyc c hc).1 (cycleIdxmin vs c') (hcyc c' hc').1

/-! ### Extrema detector: structure of the scipy peak scan -/

theorem scanGo_ge (x : List ℚ) (v : ℚ) :
    ∀ steps iAhead, iAhead ≤ scanGo x v iAhead steps := by
  intro steps
  induction steps with
  | zero => intro iAhead; exact Nat.le_refl _
  | succ steps ih =>
    intro iAhead
    simp only [scanGo]
    split
    · exact Nat.le_trans (Nat.le_succ _) (ih (iAhead + 1))
    · exact Nat.le_refl _

theorem scanGo_le (x : List ℚ) (v : ℚ) :
    ∀ steps iAhead, scanGo x v iAhead steps ≤ iAhead + steps := by
  intro steps
  induction steps with
  | zero => intro iAhead; exact Nat.le_refl _
  | succ steps ih =>
    intro iAhead
    simp only [scanGo]
    split
    · exact Nat.le_trans (ih (iAhead + 1)) (by omega)
    · omega

theorem scanGo_plateau (x : List ℚ) (v : ℚ) :
    ∀ steps iAhead j, iAhead ≤ j → j < scanGo x v iAhead steps →
      x.getD j 0 = v := by
  intro steps
  induction steps with
  | zero =>
    intro iAhead j h1 h2
    simp only [scanGo] at h2
    omega
  | succ steps ih =>
    intro iAhead j h1 h2
    simp only [scanGo] at h2
    split at h2
    · rename_i hv
      rcases Nat.eq_or_lt_of_le h1 with rfl | hlt
      · exact hv
      · exact ih (iAhead + 1) j hlt h2
    · omega

theorem lmGo_mem (x : List ℚ) (iMax : Nat) :
    ∀ fuel i j, j ∈ lmGo x iMax i fuel →
      ∃ l, i ≤ l ∧ l < iMax ∧
        x.getD (l - 1) 0 < x.getD l 0 ∧
        x.getD (scanGo x (x.getD l 0) (l + 1) (iMax - (l + 1))) 0 <
          x.getD l 0 ∧
        j = (l + (scanGo x (x.getD l 0) (l + 1) (iMax - (l + 1)) - 1)) / 2 := by
  intro fuel
  induction fuel with
  | zero =>
    intro i j hj
    simp [lmGo] at hj
  | succ fuel ih =>
    intro i j hj
    simp only [lmGo] at hj
    by_cases hi : i < iMax
    · rw [if_pos hi] at hj
      by_cases hrise : x.getD (i - 1) 0 < x.getD i 0
      · rw [if_pos hrise] at hj
        by_cases hfall :
            x.getD (scanGo x (x.getD i 0) (i + 1) (iMax - (i + 1))) 0 <
              x.getD i 0
        · rw [if_pos hfall] at hj
          rcases List.mem_cons.mp hj with rfl | hj'
          · exact ⟨i, Nat.le_refl _, hi, hrise, hfall, rfl⟩
          · obtain ⟨l, hl1, hl2, hl3, hl4, hl5⟩ := ih _ j hj'
            have hge := scanGo_ge x (x.getD i 0) (iMax - (i + 1)) (i + 1)
            exact ⟨l, by omega, hl2, hl3, hl4, hl5⟩
        · rw [if_neg hfall] at hj
          obtain ⟨l, hl1, hl2, hl3, hl4, hl5⟩ := ih _ j hj
          exact ⟨l, by omega, hl2, hl3, hl4, hl5⟩
      · rw [if_neg hrise] at hj
        obtain ⟨l, hl1, hl2, hl3, hl4, hl5⟩ := ih _ j hj
        exact ⟨l, by omega, hl2, hl3, hl4, hl5⟩
    · rw [if_neg hi] at hj
      exact absurd hj (List.not_mem_nil j)

/-- Packaged flat-peak description of a member of `find_peaks x`: the
peak index is the midpoint of a plateau `l .. a-1` (constant value),
strictly risen into and strictly fallen out of. -/
theorem find_peaks_spec (x : List ℚ) (j : Nat) (hj : j ∈ find_peaks x) :
    ∃ l a, 1 ≤ l ∧ l < x.length - 1 ∧ l + 1 ≤ a ∧ a ≤ x.length - 1 ∧
      x.getD (l - 1) 0 < x.getD l 0 ∧
      x.getD a 0 < x.getD l 0 ∧
      (∀ m, l ≤ m → m ≤ a - 1 → x.getD m 0 = x.getD l 0) ∧
      l ≤ j ∧ j ≤ a - 1 := by
  obtain ⟨l, hl1, hl2, hl3, hl4, hl5⟩ := lmGo_mem x (x.length - 1) x.length 1 j hj
  set a := scanGo x (x.getD l 0) (l + 1) (x.length - 1 - (l + 1)) with ha
  have hge := scanGo_ge x (x.getD l 0) (x.length - 1 - (l + 1)) (l + 1)
  have hle := scanGo_le x (x.getD l 0) (x.length - 1 - (l + 1)) (l + 1)
  refine ⟨l, a, hl1, hl2, hge, by omega, hl3, hl4, ?_, by omega, by omega⟩
  intro m hm1 hm2
  rcases Nat.eq_or_lt_of_le hm1 with rfl | hlt
  · rfl
  · exact scanGo_plateau x (x.getD l 0) (x.length - 1 - (l + 1)) (l + 1) m hlt
      (by omega)

theorem getD_map_neg (vals : List ℚ) (m : Nat) :
    (vals.map (fun v => -v)).getD m 0 = -(vals.getD m 0) := by
  rcases Nat.lt_or_ge m vals.length with h | h
  · rw [List.getD_eq_getElem _ _ (by simpa using h), List.getD_eq_getElem _ _ h]
    simp
  · rw [List.getD_eq_default _ _ (by simpa using h), List.getD_eq_default _ _ h]
    simp

/-- C7: no index is both a peak and a trough; peak and trough indices
are always interior (so the first and last indices of the series never
appear in either list); and an empty series yields empty peak and
trough results rather than a failure. -/
theorem extrema_disjoint_and_interior (df : List Row) :
    (∀ j, j ∈ (find_extrema df).2.2.1 → j ∉ (find_extrema df).2.2.2)
    ∧ (∀ j ∈ (find_extrema df).2.2.1, 1 ≤ j ∧ j + 1 < df.length)
    ∧ (∀ j ∈ (find_extrema df).2.2.2, 1 ≤ j ∧ j + 1 < df.length)
    ∧ 0 ∉ (find_extrema df).2.2.1 ∧ 0 ∉ (find_extrema df).2.2.2
    ∧ (df.length - 1) ∉ (find_extrema df).2.2.1
    ∧ (df.length - 1) ∉ (find_extrema df).2.2.2
    ∧ find_extrema ([] : List Row) = ([], [], [], []) := by
  set vals := df.map (·.value) with hvals
  have hp : (find_extrema df).2.2.1 = find_peaks vals := rfl
  have ht : (find_extrema df).2.2.2 =
      find_peaks (vals.map (fun v => -v)) := rfl
  have hlen : vals.length = df.length := List.length_map _ _
  have hlen' : (vals.map (fun v => -v)).length = df.length := by
    rw [List.length_map, hlen]
  have hpeak_bounds : ∀ j ∈ find_peaks vals, 1 ≤ j ∧ j + 1 < df.length := by
    intro j hj
    obtain ⟨l, a, h1, h2, h3, h4, -, -, -, h8, h9⟩ := find_peaks_spec vals j hj
    rw [hlen] at h2 h4
    omega
  have htrough_bounds : ∀ j ∈ find_peaks (vals.map (fun v => -v)),
      1 ≤ j ∧ j + 1 < df.length := by
    intro j hj
    obtain ⟨l, a, h1, h2, h3, h4, -, -, -, h8, h9⟩ :=
      find_peaks_spec (vals.map (fun v => -v)) j hj
    rw [hlen'] at h2 h4
    omega
  have hdisj : ∀ j, j ∈ find_peaks vals →
      j ∉ find_peaks (vals.map (fun v => -v)) := by
    intro j hj hj'
    obtain ⟨l, a, p1, p2, p3, p4, p5, p6, p7, p8⟩ := find_peaks_spec vals j hj
    obtain ⟨l', a', t1, t2, t3, t4, t5, t6, t7, t8⟩ :=
      find_peaks_spec (vals.map (fun v => -v)) j hj'
    rw [getD_map_neg, getD_map_neg] at t5 t6
    have t5' : vals.getD l' 0 < vals.getD (l' - 1) 0 := by
      exact neg_lt_neg_iff.mp t5
    have t6' : vals.getD l' 0 < vals.getD a' 0 := by
      exact neg_lt_neg_iff.mp t6
    have t7' : ∀ m, l' ≤ m → m ≤ a' - 1 → vals.getD m 0 = vals.getD l' 0 := by
      intro m hm1 hm2
      have := t7 m hm1 hm2
      rw [getD_map_neg, getD_map_neg] at this
      exact neg_injective this
    rcases lt_trichotomy l l' with hll | hll | hll
    · have e1 : vals.getD (l' - 1) 0 = vals.getD l 0 := p7 (l' - 1) (by omega) (by omega)
      have e2 : vals.getD l' 0 = vals.getD l 0 := p7 l' (by omega) (by omega)
      rw [e1, e2] at t5'
      exact lt_irrefl _ t5'
    · subst hll
      exact lt_asymm p5 t5'
    · have e1 : vals.getD (l - 1) 0 = vals.getD l' 0 := t7' (l - 1) (by omega) (by omega)
      have e2 : vals.getD l 0 = vals.getD l' 0 := t7' l (by omega) (by omega)
      rw [e1, e2] at p5
      exact lt_irrefl _ p5
  rw [hp, ht]
  refine ⟨hdisj, hpeak_bounds, htrough_bounds, ?_, ?_, ?_, ?_, rfl⟩
  · intro h
    have := hpeak_bounds 0 h
    omega
  · intro h
    have := htrough_bounds 0 h
    omega
  · intro h
    have := hpeak_bounds _ h
    omega
  · intro h
    have := htrough_bounds _ h
    omega

theorem scanGo_distinct (x : List ℚ)
    (hd : ∀ m, m + 1 < x.length → x.getD m 0 ≠ x.getD (m + 1) 0) (i : Nat) :
    scanGo x (x.getD i 0) (i + 1) (x.length - 1 - (i + 1)) = i + 1 := by
  cases hsteps : x.length - 1 - (i + 1) with
  | zero => simp [scanGo]
  | succ steps =>
    have hne : ¬ x.getD (i + 1) 0 = x.getD i 0 := by
      intro heq
      exact hd i (by omega) heq.symm
    simp only [scanGo, if_neg hne]

theorem lmGo_distinct_iff (x : List ℚ)
    (hd : ∀ m, m + 1 < x.length → x.getD m 0 ≠ x.getD (m + 1) 0) :
    ∀ fuel i j, x.length - 1 - i ≤ fuel → 1 ≤ i →
      (j ∈ lmGo x (x.length - 1) i fuel ↔
        (i ≤ j ∧ j + 1 < x.length ∧
         x.getD (j - 1) 0 < x.getD j 0 ∧ x.getD (j + 1) 0 < x.getD j 0)) := by
  intro fuel
  induction fuel with
  | zero =>
    intro i j hfuel hi
    simp only [lmGo, List.not_mem_nil, false_iff]
    rintro ⟨h1, h2, -, -⟩
    omega
  | succ fuel ih =>
    intro i j hfuel hi
    simp only [lmGo]
    by_cases hlt : i < x.length - 1
    · rw [if_pos hlt]
      by_cases hrise : x.getD (i - 1) 0 < x.getD i 0
      · rw [if_pos hrise]
        rw [scanGo_distinct x hd i]
        have hmid : (i + (i + 1 - 1)) / 2 = i := by omega
        rw [hmid]
        by_cases hfall : x.getD (i + 1) 0 < x.getD i 0
        · rw [if_pos hfall]
          rw [List.mem_cons, ih (i + 2) j (by omega) (by omega)]
          constructor
          · rintro (rfl | ⟨h1, h2, h3, h4⟩)
            · exact ⟨Nat.le_refl _, by omega, hrise, hfall⟩
            · exact ⟨by omega, h2, h3, h4⟩
          · rintro ⟨h1, h2, h3, h4⟩
            rcases Nat.lt_or_ge j (i + 1) with hj | hj
            · exact Or.inl (by omega)
            · rcases Nat.lt_or_ge j (i + 2) with hj' | hj'
              · have : j = i + 1 := by omega
                subst this
                have : x.getD i 0 < x.getD (i + 1) 0 := by
                  simpa using h3
                exact absurd this (lt_asymm hfall)
              · exact Or.inr ⟨hj', h2, h3, h4⟩
        · rw [if_neg hfall]
          rw [ih (i + 1) j (by omega) (by omega)]
          constructor
          · rintro ⟨h1, h2, h3, h4⟩
            exact ⟨by omega, h2, h3, h4⟩
          · rintro ⟨h1, h2, h3, h4⟩
            rcases Nat.lt_or_ge j (i + 1) with hj | hj
            · have : j = i := by omega
              subst this
              exact absurd h4 hfall
            · exact ⟨hj, h2, h3, h4⟩
      · rw [if_neg hrise]
        rw [ih (i + 1) j (by omega) (by omega)]
        constructor
        · rintro ⟨h1, h2, h3, h4⟩
          exact ⟨by omega, h2, h3, h4⟩
        · rintro ⟨h1, h2, h3, h4⟩
          rcases Nat.lt_or_ge j (i + 1) with hj | hj
          · have : j = i := by omega
            subst this
            exact absurd h3 hrise
          · exact ⟨hj, h2, h3, h4⟩
    · rw [if_neg hlt]
      simp only [List.not_mem_nil, false_iff]
      rintro ⟨h1, h2, -, -⟩
      omega

/-- C3 counterexample: on the spec's own scenario input
`[10, 30, 5, 5, 50]` the code flags index 2 as a trough even though
`value[2] < value[3]` fails (it is a plateau: `value[2] = value[3]`),
so the claimed strict 3-point rule and "Troughs are empty" are false
on the code. -/
theorem extrema_plateau_flagged :
    (find_extrema
        [⟨0, 10, 0⟩, ⟨1, 30, 0⟩, ⟨2, 5, 0⟩, ⟨3, 5, 0⟩, ⟨4, 50, 0⟩]).2.2.2 = [2]
    ∧ (find_extrema
        [⟨0, 10, 0⟩, ⟨1, 30, 0⟩, ⟨2, 5, 0⟩, ⟨3, 5, 0⟩, ⟨4, 50, 0⟩]).2.2.2 ≠ []
    ∧ ¬ (([⟨0, 10, 0⟩, ⟨1, 30, 0⟩, ⟨2, 5, 0⟩, ⟨3, 5, 0⟩, ⟨4, 50, 0⟩] :
          List Row).map (·.value)).getD 2 0 <
        (([⟨0, 10, 0⟩, ⟨1, 30, 0⟩, ⟨2, 5, 0⟩, ⟨3, 5, 0⟩, ⟨4, 50, 0⟩] :
          List Row).map (·.value)).getD 3 0 := by
  refine ⟨by decide, by decide, by decide⟩

/-- C3 (amended): when no two adjacent values are equal (no plateaus),
an interior index is a Peak iff `value[i-1] < value[i] > value[i+1]`
and a Trough iff `value[i-1] > value[i] < value[i+1]`, both strict.
With plateaus, scipy's `find_peaks` flags the midpoint of a flat
extremum instead of never flagging it: on `[10, 30, 5, 5, 50]` the
Peaks are exactly `[1]` and the Troughs are exactly `[2]` (the flat
trough `5, 5` is flagged at its left midpoint, index 2). -/
theorem extrema_strict_rule_amended (df : List Row) :
    ((∀ m, m + 1 < df.length →
        (df.map (·.value)).getD m 0 ≠ (df.map (·.value)).getD (m + 1) 0) →
      ∀ j,
        (j ∈ (find_extrema df).2.2.1 ↔
          (1 ≤ j ∧ j + 1 < df.length ∧
           (df.map (·.value)).getD (j - 1) 0 < (df.map (·.value)).getD j 0 ∧
           (df.map (·.value)).getD (j + 1) 0 < (df.map (·.value)).getD j 0))
        ∧ (j ∈ (find_extrema df).2.2.2 ↔
          (1 ≤ j ∧ j + 1 < df.length ∧
           (df.map (·.value)).getD j 0 < (df.map (·.value)).getD (j - 1) 0 ∧
           (df.map (·.value)).getD j 0 < (df.map (·.value)).getD (j + 1) 0)))
    ∧ (find_extrema
        [⟨0, 10, 0⟩, ⟨1, 30, 0⟩, ⟨2, 5, 0⟩, ⟨3, 5, 0⟩, ⟨4, 50, 0⟩]).2.2.1 = [1]
    ∧ (find_extrema
        [⟨0, 10, 0⟩, ⟨1, 30, 0⟩, ⟨2, 5, 0⟩, ⟨3, 5, 0⟩, ⟨4, 50, 0⟩]).2.2.2 = [2] := by
  refine ⟨?_, by decide, by decide⟩
  intro hd j
  set vals := df.map (·.value) with hvals
  have hlen : vals.length = df.length := List.length_map _ _
  have hp : (find_extrema df).2.2.1 = find_peaks vals := rfl
  have ht : (find_extrema df).2.2.2 =
      find_peaks (vals.map (fun v => -v)) := rfl
  constructor
  · rw [hp]
    have := lmGo_distinct_iff vals (by rw [hlen]; exact hd) vals.length 1 j
      (by omega) (Nat.le_refl 1)
    rw [find_peaks, this, hlen]
  · rw [ht]
    have hlen' : (vals.map (fun v => -v)).length = df.length := by
      rw [List.length_map, hlen]
    have hd' : ∀ m, m + 1 < (vals.map (fun v => -v)).length →
        (vals.map (fun v => -v)).getD m 0 ≠
          (vals.map (fun v => -v)).getD (m + 1) 0 := by
      intro m hm heq
      rw [getD_map_neg, getD_map_neg] at heq
      rw [hlen'] at hm
      exact hd m hm (neg_injective heq)
    have := lmGo_distinct_iff (vals.map (fun v => -v)) hd'
      (vals.map (fun v => -v)).length 1 j (by omega) (Nat.le_refl 1)
    rw [find_peaks, this, hlen']
    rw [getD_map_neg, getD_map_neg, getD_map_neg]
    constructor
    · rintro ⟨h1, h2, h3, h4⟩
      exact ⟨h1, h2, neg_lt_neg_iff.mp h3, neg_lt_neg_iff.mp h4⟩
    · rintro ⟨h1, h2, h3, h4⟩
      exact ⟨h1, h2, neg_lt_neg_iff.mpr h3, neg_lt_neg_iff.mpr h4⟩

/-! ### Moving average -/

theorem take_drop_window (vs : List ℚ) (lo hi : Nat) (hlo : lo ≤ hi)
    (hhi : hi ≤ vs.length) :
    (vs.take hi).drop lo = (List.range' lo (hi - lo)).map (vs.getD · 0) := by
  apply List.ext_getElem
  · simp only [List.length_drop, List.length_take, List.length_map,
      List.length_range']
    omega
  · intro k h1 h2
    simp only [List.length_drop, List.length_take] at h1
    simp only [List.getElem_drop, List.getElem_take, List.getElem_map,
      List.getElem_range']
    rw [List.getD_eq_getElem _ _ (by omega)]
    congr 1
    omega

/-- C4: the derived moving-average column value at index `i` is the
arithmetic mean of the raw values at indices `max(0, i-4) .. i`; for a
series of length 1 it equals the raw value at index 0; for `i ≥ 4` it
is the mean of the five values at `i-4 .. i`; and the `5_day_MA` column
attached by the Loader is exactly `rollingMean5` of the sorted values. -/
theorem moving_average_window (vs : List ℚ) (i : Nat) (hi : i < vs.length) :
    rollingMean5 vs i = specTrailingMean vs i
    ∧ (vs.length = 1 → rollingMean5 vs 0 = vs.getD 0 0)
    ∧ (4 ≤ i → rollingMean5 vs i =
        (vs.getD (i - 4) 0 + vs.getD (i - 3) 0 + vs.getD (i - 2) 0 +
         vs.getD (i - 1) 0 + vs.getD i 0) / 5)
    ∧ (∀ s : List Sample, i < (cleanSeries s).length →
        ((cleanSeries s).getD i default).ma =
          rollingMean5 ((sortByTimestamp s).map (·.value)) i) := by
  have hwin : (vs.take (i + 1)).drop (i + 1 - 5) =
      (List.range' (i - 4) (i + 1 - (i - 4))).map (vs.getD · 0) := by
    have h1 : i + 1 - 5 = i - 4 := by omega
    rw [h1]
    exact take_drop_window vs (i - 4) (i + 1) (by omega) (by omega)
  have hmain : rollingMean5 vs i = specTrailingMean vs i := by
    rw [rollingMean5, specTrailingMean]
    simp only [hwin, List.length_map, List.length_range']
  refine ⟨hmain, ?_, ?_, ?_⟩
  · intro h1
    obtain ⟨v, rfl⟩ := List.length_eq_one.mp h1
    norm_num [rollingMean5]
  · intro h4
    obtain ⟨k, rfl⟩ := Nat.exists_eq_add_of_le h4
    rw [hmain, specTrailingMean]
    have e0 : 4 + k - 4 = k := by omega
    have e1 : 4 + k - 3 = k + 1 := by omega
    have e2 : 4 + k - 2 = k + 2 := by omega
    have e3 : 4 + k - 1 = k + 3 := by omega
    have e4 : 4 + k = k + 4 := by omega
    rw [e0, e1, e2, e3]
    have e5 : 4 + k + 1 - k = 5 := by omega
    rw [e5]
    have hexp : List.range' k 5 = [k, k + 1, k + 2, k + 3, k + 4] := rfl
    rw [hexp]
    simp only [List.map_cons, List.map_nil, List.sum_cons, List.sum_nil]
    rw [e4]
    push_cast
    ring
  · intro s hs
    have hlen : (cleanSeries s).length = (sortByTimestamp s).length := by
      simp [cleanSeries, addMA]
    rw [hlen] at hs
    show ((addMA (sortByTimestamp s)).getD i default).ma = _
    rw [addMA, List.getD_eq_getElem _ _ (by simpa using hs)]
    simp

/-! ### Threshold filter -/

/-- C5: the Threshold Filter returns exactly the ordered subsequence of
`(timestamp, value)` pairs of rows with value strictly below 20 (a
value of exactly 20 is excluded, an empty input yields an empty
output), and the below-threshold subset the Renderer re-derives for
chart 4 projects to exactly the Threshold Filter's output. -/
theorem threshold_filter (df : List Row) :
    below_20 df = (df.map (fun r => (r.timestamp, r.value))).filter
        (fun p => p.2 < 20)
    ∧ (∀ p ∈ below_20 df, p.2 < 20)
    ∧ below_20 ([] : List Row) = []
    ∧ (rendererBelow df).map (fun r => (r.timestamp, r.value)) = below_20 df := by
  refine ⟨?_, ?_, rfl, rfl⟩
  · rw [below_20, List.filter_map]
    rfl
  · intro p hp
    rw [below_20] at hp
    obtain ⟨r, hr, rfl⟩ := List.mem_map.mp hp
    have := List.of_mem_filter hr
    simpa using this

/-! ### Loader input selection -/

theorem load_df_selectInput_none (b : Option CSVData) (p : Option String)
    (fs : String → Option CSVData) (hsel : selectInput b p fs = none) :
    load_df b p fs = Except.error LoadError.missingInput := by
  rw [load_df, hsel]

theorem load_df_selectInput_some (b : Option CSVData) (p : Option String)
    (fs : String → Option CSVData) (d : CSVData)
    (hsel : selectInput b p fs = some d) :
    load_df b p fs =
      if "Timestamp" ∈ d.cols ∧ "Values" ∈ d.cols then
        Except.ok (cleanSeries (parsedRows d))
      else
        Except.error LoadError.schemaError := by
  rw [load_df, hsel]

theorem selectInput_none_iff (b : Option CSVData) (p : Option String)
    (fs : String → Option CSVData) :
    selectInput b p fs = none ↔
      (b = none ∧ ∀ q, p = some q → fs q = none) := by
  cases b with
  | some d => simp [selectInput]
  | none =>
    cases p with
    | none => simp [selectInput]
    | some q => simp [selectInput]

/-! ### Loader error taxonomy and orchestration -/

theorem parsedRows_filter (l : List RawRow) :
    l.filterMap (fun r => r.ts.map fun t => (⟨t, r.value⟩ : Sample)) =
      (l.filter (fun r => r.ts.isSome)).map
        (fun r => ⟨r.ts.getD 0, r.value⟩) := by
  induction l with
  | nil => rfl
  | cons r rest ih =>
    cases hts : r.ts with
    | none => simp [List.filterMap_cons, List.filter_cons, hts, ih]
    | some t => simp [List.filterMap_cons, List.filter_cons, hts, ih]

/-- C8: the Loader fails with `MissingInputError` exactly when no byte
buffer and no existing-file path is supplied; it fails with
`SchemaError` exactly when input is available but a required column is
absent; and on success it returns the cleaned series of exactly the
rows whose timestamp parsed — unparseable rows are silently dropped
with no error and no reported count. -/
theorem loader_error_taxonomy (b : Option CSVData) (p : Option String)
    (fs : String → Option CSVData) :
    (load_df b p fs = .error .missingInput ↔
      (b = none ∧ ∀ q, p = some q → fs q = none))
    ∧ (load_df b p fs = .error .schemaError ↔
      (∃ d, selectInput b p fs = some d ∧
        ¬ ("Timestamp" ∈ d.cols ∧ "Values" ∈ d.cols)))
    ∧ (∀ d, selectInput b p fs = some d → "Timestamp" ∈ d.cols →
        "Values" ∈ d.cols → load_df b p fs = .ok (cleanSeries (parsedRows d)))
    ∧ (∀ d : CSVData, parsedRows d =
        (d.rows.filter (fun r => r.ts.isSome)).map
          (fun r => ⟨r.ts.getD 0, r.value⟩)) := by
  refine ⟨?_, ?_, ?_, fun d => parsedRows_filter d.rows⟩
  · rw [← selectInput_none_iff b p fs]
    cases hsel : selectInput b p fs with
    | none => simp [load_df_selectInput_none b p fs hsel]
    | some d =>
      rw [load_df_selectInput_some b p fs d hsel]
      constructor
      · intro h
        split at h <;> simp at h
      · intro h
        simp at h
  · cases hsel : selectInput b p fs with
    | none =>
      rw [load_df_selectInput_none b p fs hsel]
      constructor
      · intro h
        simp at h
      · rintro ⟨d, hd, -⟩
        simp at hd
    | some d =>
      rw [load_df_selectInput_some b p fs d hsel]
      by_cases hcols : "Timestamp" ∈ d.cols ∧ "Values" ∈ d.cols
      · rw [if_pos hcols]
        constructor
        · intro h
          simp at h
        · rintro ⟨d2, hd2, hcols2⟩
          injection hd2 with h2
          subst h2
          exact absurd hcols hcols2
      · rw [if_neg hcols]
        exact ⟨fun _ => ⟨d, rfl, hcols⟩, fun _ => rfl⟩
  · intro d hd h1 h2
    rw [load_df_selectInput_some b p fs d hd, if_pos ⟨h1, h2⟩]

/-- C9: `run_analysis` writes no artifact when it fails with a fatal
Loader error (neither the acceleration CSV nor any chart image), and on
success writes exactly the acceleration CSV followed by the five chart
images. -/
theorem run_analysis_fatal_writes_nothing (b : Option CSVData)
    (p : Option String) (fs : String → Option CSVData) (outDir : String) :
    (∀ e, (run_analysis b p fs outDir).2 = .error e →
      (run_analysis b p fs outDir).1 = [])
    ∧ (∀ res, (run_analysis b p fs outDir).2 = .ok res →
      (run_analysis b p fs outDir).1 = artifactFiles outDir) := by
  cases h : load_df b p fs with
  | error e => simp [run_analysis, h]
  | ok df => simp [run_analysis, h]

/-- C10: when a byte buffer is supplied, the path is ignored entirely:
the result equals loading from the bytes alone, and `MissingInputError`
is never raised, whatever the path and filesystem state. -/
theorem uploaded_bytes_precedence (b : CSVData) (p : Option String)
    (fs : String → Option CSVData) :
    load_df (some b) p fs = load_df (some b) none (fun _ => none)
    ∧ ∀ (p' : Option String) (fs' : String → Option CSVData),
        load_df (some b) p' fs' ≠ .error .missingInput := by
  constructor
  · rfl
  · intro p' fs'
    simp only [load_df, selectInput]
    split <;> simp

/-! ### Concrete witnesses -/

theorem descent_runs_partition_witness :
    downwardCycles [(5 : ℚ)] = [] :=
  (descent_runs_partition [(5 : ℚ)]).2.2.2.1 (by decide)

theorem acceleration_records_witness :
    ((find_downward_acceleration ([] : List Row)).map (·.index)).Pairwise
      (· < ·) :=
  (acceleration_records ([] : List Row)).2

theorem extrema_strict_rule_amended_witness :
    (find_extrema
      [⟨0, 10, 0⟩, ⟨1, 30, 0⟩, ⟨2, 5, 0⟩, ⟨3, 5, 0⟩, ⟨4, 50, 0⟩]).2.2.1 = [1] :=
  (extrema_strict_rule_amended ([] : List Row)).2.1

theorem moving_average_window_witness :
    (2 : Nat) < ([1, 2, 3] : List ℚ).length ∧
    (rollingMean5 [1, 2, 3] 2 = specTrailingMean [1, 2, 3] 2
     ∧ (([1, 2, 3] : List ℚ).length = 1 →
         rollingMean5 [1, 2, 3] 0 = ([1, 2, 3] : List ℚ).getD 0 0)
     ∧ (4 ≤ 2 → rollingMean5 [1, 2, 3] 2 =
         (([1, 2, 3] : List ℚ).getD (2 - 4) 0 +
          ([1, 2, 3] : List ℚ).getD (2 - 3) 0 +
          ([1, 2, 3] : List ℚ).getD (2 - 2) 0 +
          ([1, 2, 3] : List ℚ).getD (2 - 1) 0 +
          ([1, 2, 3] : List ℚ).getD 2 0) / 5)
     ∧ (∀ s : List Sample, 2 < (cleanSeries s).length →
         ((cleanSeries s).getD 2 default).ma =
           rollingMean5 ((sortByTimestamp s).map (·.value)) 2)) :=
  ⟨by decide, moving_average_window [1, 2, 3] 2 (by decide)⟩

theorem threshold_filter_witness :
    below_20 ([] : List Row) = [] :=
  (threshold_filter ([] : List Row)).2.2.1

theorem extrema_disjoint_and_interior_witness :
    find_extrema ([] : List Row) = ([], [], [], []) :=
  (extrema_disjoint_and_interior ([] : List Row)).2.2.2.2.2.2.2

theorem loader_error_taxonomy_witness :
    load_df none none (fun _ => none) = .error .missingInput :=
  (loader_error_taxonomy none none (fun _ => none)).1.mpr
    ⟨rfl, fun _ h => nomatch h⟩

theorem run_analysis_fatal_writes_nothing_witness :
    (run_analysis none none (fun _ => none) "static").1 = [] :=
  (run_analysis_fatal_writes_nothing none none (fun _ => none) "static").1
    LoadError.missingInput rfl

theorem uploaded_bytes_precedence_witness :
    load_df (some ⟨[], []⟩) (some "data") (fun _ => none) =
      load_df (some ⟨[], []⟩) none (fun _ => none) :=
  (uploaded_bytes_precedence ⟨[], []⟩ (some "data") (fun _ => none)).1
